import Mathlib

/-!
Verification of the commercial-cut transcoding pipeline (transcode.py):
the segment planner (`Transcoder.split` / `Transcoder._extract`), the
caption resynchronizer (`Subtitles.adjust` with `Subtitles.mark`), the
audio stream selector (`Transcoder._find_streams` with `_iso_639_2`),
and the SRT timestamp serializer (`_seconds_to_time_frac` with comma).
All times are modelled as exact rationals (`ℚ`); the Python source uses
binary floats, but every property below concerns the algebraic structure
of the algorithms, which the rational model reflects faithfully.
-/

namespace Transcode

/-! ## Definitions

### Segment planner (`Transcoder.split`, `Transcoder._extract`)

`Transcoder.split` walks `self.source.cutlist` with cursors
`(pos, elapsed) = (0, 0)`; for each cut `(start, end)` it calls
`self._extract((pos, start), elapsed)` when `start > self.opts.thresh and
start > pos`, then always performs `elapsed += start - pos; pos = end`.
After the loop, if `pos < self.source.duration - self.opts.thresh` it
extracts the trailing clip `(pos, duration)` and advances the cursors.
Finally it calls `self.chapters.add(elapsed, None)` (the closing marker).

`Transcoder._extract(clip, elapsed)` calls `self.chapters.add(elapsed,
self.seg)` (an interior chapter marker) and `self.subtitles.mark(clip[1])`
(a caption-resynchronization cutpoint; `Subtitles.mark` appends to
`Subtitles.marks`). -/

/-- The mutable state threaded through the loop of `Transcoder.split`:
the source cursor `pos`, the output cursor `elapsed`, and the lists
accumulated through `Transcoder._extract` (extracted clips, chapter
markers passed to `chapters.add`, cutpoints passed to `subtitles.mark`). -/
structure SplitState where
  pos : ℚ
  elapsed : ℚ
  segments : List (ℚ × ℚ)
  chapterMarks : List ℚ
  subMarks : List ℚ
deriving Repr, DecidableEq

/-- Initial state of `Transcoder.split`: `(pos, elapsed) = (0, 0)`. -/
def initState : SplitState :=
  ⟨0, 0, [], [], []⟩

/-- Model of `Transcoder._extract(clip, elapsed)`: records the clip for extraction,
a chapter marker at `elapsed` (`self.chapters.add(elapsed, self.seg)`),
and a subtitle cutpoint at `clip[1]` (`self.subtitles.mark(clip[1])`). -/
def extract (st : SplitState) (clip : ℚ × ℚ) (elapsed : ℚ) : SplitState :=
  { st with
    segments := st.segments ++ [clip]
    chapterMarks := st.chapterMarks ++ [elapsed]
    subMarks := st.subMarks ++ [clip.2] }

/-- One iteration of the cut loop in `Transcoder.split`:
`if start > self.opts.thresh and start > pos: self._extract((pos, start),
elapsed)` followed by the unconditional `elapsed += start - pos; pos = end`. -/
def splitStep (thresh : ℚ) (st : SplitState) (cut : ℚ × ℚ) : SplitState :=
  let st1 := if cut.1 > thresh ∧ cut.1 > st.pos then
      extract st (st.pos, cut.1) st.elapsed
    else st
  { st1 with elapsed := st1.elapsed + (cut.1 - st.pos), pos := cut.2 }

/-- What `Transcoder.split` produces: the extracted clips, the labelled
chapter markers, the subtitle cutpoints, and the elapsed value passed to
the final `self.chapters.add(elapsed, None)` (the closing marker). -/
structure SplitResult where
  segments : List (ℚ × ℚ)
  chapterMarks : List ℚ
  subMarks : List ℚ
  closing : ℚ
deriving Repr, DecidableEq

/-- Model of `Transcoder.split`: the cut loop, the trailing clip
(`if pos < self.source.duration - self.opts.thresh`), and the closing
`chapters.add(elapsed, None)`. -/
def split (cutlist : List (ℚ × ℚ)) (duration thresh : ℚ) : SplitResult :=
  let st := cutlist.foldl (splitStep thresh) initState
  let st2 := if st.pos < duration - thresh then
      let st1 := extract st (st.pos, duration) st.elapsed
      { st1 with elapsed := st1.elapsed + (duration - st.pos), pos := duration }
    else st
  ⟨st2.segments, st2.chapterMarks, st2.subMarks, st2.elapsed⟩

/-- Output of the cut-processing phase of `Transcoder.split`: produced
clips, chapter markers, and the final `pos` / `elapsed` cursors. -/
structure PlanOut where
  segs : List (ℚ × ℚ)
  cmarks : List ℚ
  endPos : ℚ
  endElapsed : ℚ
deriving Repr, DecidableEq

/-- Structural recursion equivalent of the loop in `Transcoder.split`
(proved equivalent in `foldl_splitStep_eq`).  It makes the per-cut
behaviour explicit: a clip `(pos, start)` is produced exactly when
`start > thresh ∧ start > pos`, and the cursors advance by
`elapsed += start - pos; pos = end` for every cut regardless. -/
def planCuts (thresh : ℚ) (pos elapsed : ℚ) : List (ℚ × ℚ) → PlanOut
  | [] => ⟨[], [], pos, elapsed⟩
  | c :: rest =>
    let r := planCuts thresh c.2 (elapsed + (c.1 - pos)) rest
    if c.1 > thresh ∧ c.1 > pos then
      ⟨(pos, c.1) :: r.segs, elapsed :: r.cmarks, r.endPos, r.endElapsed⟩
    else r

/-- Membership of `x` in the half-open interval `[I.1, I.2)`. -/
def memInd (x : ℚ) (I : ℚ × ℚ) : Bool :=
  decide (I.1 ≤ x ∧ x < I.2)

/-- Running totals of kept output time over a clip list: entry `i` is the
sum of the lengths of clips `0..i`, i.e. the cumulative kept (output)
duration up to the end of clip `i`. -/
def cumKept (acc : ℚ) : List (ℚ × ℚ) → List ℚ
  | [] => []
  | s :: rest => (acc + (s.2 - s.1)) :: cumKept (acc + (s.2 - s.1)) rest

/-- Transcribed from the spec's validity conditions on a Cutlist, for
comparison with what the code does: no negative times, `end > start` for
every interval, intervals inside `[0, duration]`, and no overlap (the
intervals are in ascending order, each ending before the next starts).
The code itself contains no such check. -/
def specValidCutlist (duration : ℚ) (cuts : List (ℚ × ℚ)) : Prop :=
  (∀ c ∈ cuts, 0 ≤ c.1 ∧ c.1 < c.2 ∧ c.2 ≤ duration) ∧
    List.Chain' (fun a b : ℚ × ℚ => a.2 ≤ b.1) cuts

instance (duration : ℚ) (cuts : List (ℚ × ℚ)) :
    Decidable (specValidCutlist duration cuts) := by
  unfold specValidCutlist
  infer_instance

/-! ### Caption resynchronizer (`Subtitles.adjust`)

`Subtitles.adjust` reads the SRT file line by line; a line matching the
timestamp regex carries a caption's `(start, end)` pair and is rewritten,
any other line passes through unchanged.  The resynchronization state is
`delay = 0.0` and `curr = 0`; for each caption:

    start += delay; end += delay
    if curr < len(self.marks) and self.marks[curr] < end:
        if self.marks[curr] > start:
            delay += self.marks[curr] - end
            end = self.marks[curr]
        curr += 1

If `len(self.marks) == 0` the method returns at once, leaving the file
unchanged.  We model the caption track as the list of its `(start, end)`
pairs. -/

/-- One caption of the loop body of `Subtitles.adjust`: takes the state
`(delay, curr)` and the caption's original times, returns the new state
and the rewritten times.  `c.1 + st.1` and `c.2 + st.1` are the
delay-adjusted `start` and `end`. -/
def adjustStep (marks : List ℚ) (st : ℚ × ℕ) (c : ℚ × ℚ) : (ℚ × ℕ) × (ℚ × ℚ) :=
  match marks.get? st.2 with
  | some m =>
    if m < c.2 + st.1 then
      if m > c.1 + st.1 then ((st.1 + (m - (c.2 + st.1)), st.2 + 1), (c.1 + st.1, m))
      else ((st.1, st.2 + 1), (c.1 + st.1, c.2 + st.1))
    else ((st.1, st.2), (c.1 + st.1, c.2 + st.1))
  | none => ((st.1, st.2), (c.1 + st.1, c.2 + st.1))

/-- The caption loop of `Subtitles.adjust`, threading `(delay, curr)`. -/
def adjustGo (marks : List ℚ) : (ℚ × ℕ) → List (ℚ × ℚ) → List (ℚ × ℚ)
  | _, [] => []
  | st, c :: cs =>
    let r := adjustStep marks st c
    r.2 :: adjustGo marks r.1 cs

/-- Model of `Subtitles.adjust`: early return when no cutpoints were marked,
otherwise the loop starting from `delay = 0.0`, `curr = 0`. -/
def adjust (marks : List ℚ) (caps : List (ℚ × ℚ)) : List (ℚ × ℚ) :=
  if marks.length = 0 then caps else adjustGo marks (0, 0) caps

/-! ### Audio stream selection (`Transcoder._find_streams`, `_iso_639_2`) -/

/-- The fixed two-letter to three-letter table of `_iso_639_2`. -/
def iso_639_2_table : List (String × String) :=
  [("cs", "ces"), ("da", "dan"), ("de", "deu"), ("es", "spa"),
   ("el", "ell"), ("en", "eng"), ("fi", "fin"), ("fr", "fra"),
   ("he", "heb"), ("hr", "hrv"), ("hu", "hun"), ("it", "ita"),
   ("ja", "jpn"), ("ko", "kor"), ("nl", "nld"), ("no", "nor"),
   ("pl", "pol"), ("pt", "por"), ("ru", "rus"), ("sl", "slv"),
   ("sv", "swe"), ("tr", "tur"), ("zh", "zho")]

/-- Model of `_iso_639_2`: translates a two-letter code through the fixed table,
raising `ValueError` (modelled as `Except.error`) on an unknown code. -/
def iso_639_2 (lang : String) : Except String String :=
  match iso_639_2_table.lookup lang with
  | some l3 => Except.ok l3
  | none => Except.error ("Invalid language code " ++ lang ++ ".")

/-- One probed audio line of the ffmpeg report consumed by
`Transcoder._find_streams`: the stream identifier parsed from
`Stream ... [0x..]` and the optional language tag parsed from `](...)`. -/
structure AudioProbe where
  pid : ℕ
  lang : Option String
deriving Repr, DecidableEq

/-- The audio half of the probing loop of `Transcoder._find_streams`:
each probed audio stream enters `astreams` as `(pid, enabled)` where
`enabled` is true exactly when the line carries a language tag equal to
`_iso_639_2(self.opts.language)`; translating an invalid language code
raises (propagates as `Except.error`). -/
def probeAudio (language : String) : List AudioProbe → Except String (List (ℕ × Bool))
  | [] => Except.ok []
  | p :: rest =>
    match
      (match p.lang with
       | some tag =>
         match iso_639_2 language with
         | Except.ok l3 => Except.ok (tag == l3)
         | Except.error e => Except.error e
       | none => Except.ok false : Except String Bool) with
    | Except.error e => Except.error e
    | Except.ok enabled =>
      match probeAudio language rest with
      | Except.error e => Except.error e
      | Except.ok tl => Except.ok ((p.pid, enabled) :: tl)

/-- The audio selection of `Transcoder._find_streams` after probing:
`if len(astreams) == 0: raise RuntimeError('No audio streams could be
found.')`, then if no stream is enabled
(`len([aud[0] for aud in astreams if aud[1]]) == 0`) the first probed
stream is forced enabled (`astreams[0] = (astreams[0][0], True)`). -/
def findAudioStreams (language : String) (probes : List AudioProbe) :
    Except String (List (ℕ × Bool)) :=
  match probeAudio language probes with
  | Except.error e => Except.error e
  | Except.ok astreams =>
    if astreams.length = 0 then
      Except.error ("No audio streams could be found.")
    else if (astreams.filter (fun a => a.2)).length = 0 then
      match astreams with
      | [] => Except.ok []
      | a :: rest => Except.ok ((a.1, true) :: rest)
    else
      Except.ok astreams

/-! ### SRT timestamp serialization (`_seconds_to_time_frac` with comma)

`Subtitles.adjust` writes each rewritten caption time back through
`_seconds_to_time_frac(sec, True)`:

    hours = int(sec / 3600); sec -= hours * 3600
    minutes = int(sec / 60); sec -= minutes * 60
    frac = int(round(sec % 1.0 * 1000))
    return '%02d:%02d:%02d,%03d' % (hours, minutes, sec, frac)

We model the four numeric fields of the produced string; the `%03d`
format is three digits exactly when the value lies in `0..999`. -/

/-- Python `int()` on a number: truncation toward zero. -/
def pyInt (q : ℚ) : ℤ :=
  if 0 ≤ q then ⌊q⌋ else ⌈q⌉

/-- Python 2 `round()`: round half away from zero. -/
def pyRound (q : ℚ) : ℤ :=
  if 0 ≤ q then ⌊q + 1 / 2⌋ else ⌈q - 1 / 2⌉

/-- Python `% 1.0` on a number: `q - floor(q)` (the result takes the sign
of the divisor, here positive). -/
def pyMod1 (q : ℚ) : ℚ :=
  q - (⌊q⌋ : ℚ)

/-- The four numeric fields of the `'%02d:%02d:%02d,%03d'` result of
`_seconds_to_time_frac(sec, comma = True)`. -/
structure FracTimeComma where
  hours : ℤ
  minutes : ℤ
  seconds : ℤ
  frac : ℤ
deriving Repr, DecidableEq

/-- Model of `_seconds_to_time_frac(sec, comma = True)`. -/
def seconds_to_time_frac_comma (sec : ℚ) : FracTimeComma :=
  let hours := pyInt (sec / 3600)
  let sec1 := sec - hours * 3600
  let minutes := pyInt (sec1 / 60)
  let sec2 := sec1 - minutes * 60
  let frac := pyRound (pyMod1 sec2 * 1000)
  ⟨hours, minutes, pyInt sec2, frac⟩

/-! ## Theorems -/

/-- The imperative cut loop of `Transcoder.split` computes exactly what
the structural recursion `planCuts` describes; in particular every value
passed to `Subtitles.mark` is the second component of the clip extracted
alongside it. -/
theorem foldl_splitStep_eq (thresh : ℚ) (cuts : List (ℚ × ℚ)) :
    ∀ st : SplitState,
      cuts.foldl (splitStep thresh) st =
        ⟨(planCuts thresh st.pos st.elapsed cuts).endPos,
         (planCuts thresh st.pos st.elapsed cuts).endElapsed,
         st.segments ++ (planCuts thresh st.pos st.elapsed cuts).segs,
         st.chapterMarks ++ (planCuts thresh st.pos st.elapsed cuts).cmarks,
         st.subMarks ++ ((planCuts thresh st.pos st.elapsed cuts).segs.map Prod.snd)⟩ := by
  induction cuts with
  | nil => intro st; simp [planCuts]
  | cons c rest ih =>
    intro st
    rw [List.foldl_cons, ih]
    by_cases h : c.1 > thresh ∧ c.1 > st.pos
    · simp [splitStep, extract, planCuts, h]
    · simp [splitStep, extract, planCuts, h]

/-- Closed form of `Transcoder.split` in terms of `planCuts`: the cut
loop, then the trailing clip when `pos < duration - thresh`, then the
closing marker at the final elapsed value. -/
theorem split_eq (cuts : List (ℚ × ℚ)) (d t : ℚ) :
    split cuts d t =
      if (planCuts t 0 0 cuts).endPos < d - t then
        ⟨(planCuts t 0 0 cuts).segs ++ [((planCuts t 0 0 cuts).endPos, d)],
         (planCuts t 0 0 cuts).cmarks ++ [(planCuts t 0 0 cuts).endElapsed],
         (planCuts t 0 0 cuts).segs.map Prod.snd ++ [d],
         (planCuts t 0 0 cuts).endElapsed + (d - (planCuts t 0 0 cuts).endPos)⟩
      else
        ⟨(planCuts t 0 0 cuts).segs,
         (planCuts t 0 0 cuts).cmarks,
         (planCuts t 0 0 cuts).segs.map Prod.snd,
         (planCuts t 0 0 cuts).endElapsed⟩ := by
  have h0 : initState.pos = 0 ∧ initState.elapsed = 0 ∧ initState.segments = []
      ∧ initState.chapterMarks = [] ∧ initState.subMarks = [] := by
    simp [initState]
  unfold split
  rw [foldl_splitStep_eq t cuts initState]
  simp only [h0.1, h0.2.1, h0.2.2.1, h0.2.2.2.1, h0.2.2.2.2, List.nil_append]
  by_cases h : (planCuts t 0 0 cuts).endPos < d - t
  · simp [h, extract]
  · simp [h]

theorem memInd_ite (x : ℚ) (I : ℚ × ℚ) :
    (if memInd x I = true then (1 : ℕ) else 0) = if I.1 ≤ x ∧ x < I.2 then 1 else 0 := by
  simp [memInd]

/-- Two adjacent half-open intervals tile their union. -/
theorem indicator_glue (a b c x : ℚ) (hab : a ≤ b) (hbc : b ≤ c) :
    ((if a ≤ x ∧ x < b then 1 else 0) + (if b ≤ x ∧ x < c then 1 else 0) : ℕ)
      = if a ≤ x ∧ x < c then 1 else 0 := by
  by_cases h1 : a ≤ x ∧ x < b
  · rw [if_pos h1, if_neg (fun h2 => absurd h2.1 (not_le.mpr h1.2)),
      if_pos ⟨h1.1, lt_of_lt_of_le h1.2 hbc⟩]
  · by_cases h2 : b ≤ x ∧ x < c
    · rw [if_neg h1, if_pos h2, if_pos ⟨le_trans hab h2.1, h2.2⟩]
    · have h3 : ¬(a ≤ x ∧ x < c) := by
        intro h3
        have hbx : b ≤ x := le_of_not_lt (fun hxb => h1 ⟨h3.1, hxb⟩)
        exact h2 ⟨hbx, h3.2⟩
      rw [if_neg h1, if_neg h2, if_neg h3]

theorem planCuts_cons (t p el : ℚ) (c : ℚ × ℚ) (rest : List (ℚ × ℚ)) :
    planCuts t p el (c :: rest) =
      if c.1 > t ∧ c.1 > p then
        ⟨(p, c.1) :: (planCuts t c.2 (el + (c.1 - p)) rest).segs,
         el :: (planCuts t c.2 (el + (c.1 - p)) rest).cmarks,
         (planCuts t c.2 (el + (c.1 - p)) rest).endPos,
         (planCuts t c.2 (el + (c.1 - p)) rest).endElapsed⟩
      else planCuts t c.2 (el + (c.1 - p)) rest :=
  rfl

/-- Core tiling invariant of the cut loop: starting the loop at source
cursor `p` on a well-formed tail of cuts, the produced clips are ordered,
non-overlapping, bounded between `p` and the final cursor, and together
with the cuts they cover `[p, endPos)` exactly once. -/
theorem planCuts_tiling (t d : ℚ) (ht : 0 ≤ t) (cuts : List (ℚ × ℚ)) :
    ∀ p el : ℚ, 0 ≤ p →
      (∀ c ∈ cuts, t < c.1 ∧ c.1 < c.2 ∧ c.2 < d - t) →
      List.Chain' (fun a b : ℚ × ℚ => a.2 ≤ b.1) cuts →
      (∀ c, cuts.head? = some c → p ≤ c.1) →
      p ≤ (planCuts t p el cuts).endPos ∧
      ((planCuts t p el cuts).endPos = p ∨
        (planCuts t p el cuts).endPos ∈ cuts.map Prod.snd) ∧
      (∀ sg ∈ (planCuts t p el cuts).segs,
        p ≤ sg.1 ∧ sg.1 < sg.2 ∧ sg.2 ≤ (planCuts t p el cuts).endPos) ∧
      List.Pairwise (fun a b : ℚ × ℚ => a.2 ≤ b.1) (planCuts t p el cuts).segs ∧
      (∀ x : ℚ, ((planCuts t p el cuts).segs ++ cuts).countP (memInd x)
          = if p ≤ x ∧ x < (planCuts t p el cuts).endPos then 1 else 0) := by
  induction cuts with
  | nil =>
    intro p el _ _ _ _
    refine ⟨le_refl p, Or.inl rfl, by simp [planCuts], by simp [planCuts], fun x => ?_⟩
    simp only [planCuts, List.nil_append, List.countP_nil]
    rw [eq_comm, if_neg (fun h => absurd h.2 (not_lt.mpr h.1))]
  | cons c rest ih =>
    intro p el hp hin hchain hhead
    have hc := hin c (List.mem_cons_self c rest)
    have hpc : p ≤ c.1 := hhead c rfl
    have hc2 : (0 : ℚ) ≤ c.2 :=
      le_of_lt (lt_trans (lt_of_le_of_lt ht hc.1) hc.2.1)
    have hchain' := (List.chain'_cons'.mp hchain).2
    have hhead' : ∀ c', rest.head? = some c' → c.2 ≤ c'.1 := by
      intro c' hc'
      exact (List.chain'_cons'.mp hchain).1 c' hc'
    have hr := ih c.2 (el + (c.1 - p)) hc2
      (fun c' hc' => hin c' (List.mem_cons_of_mem c hc')) hchain' hhead'
    set r := planCuts t c.2 (el + (c.1 - p)) rest with hrdef
    have hc2end : c.2 ≤ r.endPos := hr.1
    have hcond : c.1 > t := hc.1
    have hcc2 : c.1 ≤ c.2 := le_of_lt hc.2.1
    have hpc2 : p ≤ c.2 := le_trans hpc hcc2
    rcases lt_or_eq_of_le hpc with hlt | heq
    · -- c.1 > p: the clip (p, c.1) is extracted
      rw [planCuts_cons, if_pos ⟨hcond, hlt⟩, ← hrdef]
      refine ⟨?_, ?_, ?_, ?_, ?_⟩
      · exact le_trans hpc2 hc2end
      · rcases hr.2.1 with h | h
        · exact Or.inr (by rw [List.map_cons, h]; exact List.mem_cons_self _ _)
        · exact Or.inr (by rw [List.map_cons]; exact List.mem_cons_of_mem _ h)
      · intro sg hsg
        rcases List.mem_cons.mp hsg with h | h
        · subst h
          exact ⟨le_refl p, hlt, le_trans hcc2 hc2end⟩
        · have hb := hr.2.2.1 sg h
          exact ⟨le_trans hpc2 hb.1, hb.2.1, hb.2.2⟩
      · refine List.Pairwise.cons ?_ hr.2.2.2.1
        intro sg hsg
        exact le_trans hcc2 (hr.2.2.1 sg hsg).1
      · intro x
        have hx := hr.2.2.2.2 x
        rw [List.countP_append] at hx
        rw [List.cons_append, List.countP_cons, List.countP_append, List.countP_cons]
        simp only [memInd_ite] at *
        have glue1 := indicator_glue p c.1 c.2 x hpc hcc2
        have glue2 := indicator_glue p c.2 r.endPos x hpc2 hc2end
        omega
    · -- c.1 = p: no clip is extracted for this cut
      have hnotemit : ¬(c.1 > t ∧ c.1 > p) := by
        rintro ⟨-, h2⟩
        rw [heq] at h2
        exact lt_irrefl _ h2
      rw [planCuts_cons, if_neg hnotemit, ← hrdef]
      refine ⟨le_trans hpc2 hc2end, ?_, ?_, hr.2.2.2.1, ?_⟩
      · rcases hr.2.1 with h | h
        · exact Or.inr (by rw [List.map_cons, h]; exact List.mem_cons_self _ _)
        · exact Or.inr (by rw [List.map_cons]; exact List.mem_cons_of_mem _ h)
      · intro sg hsg
        have hb := hr.2.2.1 sg hsg
        exact ⟨le_trans hpc2 hb.1, hb.2.1, hb.2.2⟩
      · intro x
        have hx := hr.2.2.2.2 x
        rw [List.countP_append] at hx
        rw [List.countP_append, List.countP_cons]
        simp only [memInd_ite] at *
        rw [heq]
        have glue1 := indicator_glue c.1 c.2 r.endPos x hcc2 hc2end
        omega

/-- The cut loop produces at most one clip, one chapter marker and one
subtitle cutpoint per cut, for any input whatsoever. -/
theorem planCuts_lengths (t : ℚ) (cuts : List (ℚ × ℚ)) :
    ∀ p el : ℚ, (planCuts t p el cuts).segs.length ≤ cuts.length ∧
      (planCuts t p el cuts).cmarks.length = (planCuts t p el cuts).segs.length := by
  induction cuts with
  | nil => intro p el; simp [planCuts]
  | cons c rest ih =>
    intro p el
    rw [planCuts_cons]
    have hr := ih c.2 (el + (c.1 - p))
    by_cases h : c.1 > t ∧ c.1 > p
    · rw [if_pos h]
      refine ⟨?_, ?_⟩
      · simpa using Nat.succ_le_succ hr.1
      · simpa using hr.2
    · rw [if_neg h]
      exact ⟨le_trans hr.1 (Nat.le_succ _), hr.2⟩

/-- C5: for every Cutlist of non-overlapping intervals sorted ascending
by start, lying strictly inside `(thresh, duration - thresh)` (with
`0 ≤ thresh` and the inner interval nonempty, as the claim presupposes),
the Segments emitted by `Transcoder.split` never overlap one another, and
the union of the emitted Segments with the Cutlist's intervals covers
`[0, duration)` exactly once: each point of `[0, duration)` lies in
exactly one of the half-open intervals, and points outside in none. -/
theorem split_partition (cuts : List (ℚ × ℚ)) (d t : ℚ)
    (ht : 0 ≤ t) (htd : t < d - t)
    (hin : ∀ c ∈ cuts, t < c.1 ∧ c.1 < c.2 ∧ c.2 < d - t)
    (hchain : List.Chain' (fun a b : ℚ × ℚ => a.2 ≤ b.1) cuts) :
    List.Pairwise (fun a b : ℚ × ℚ => a.2 ≤ b.1) (split cuts d t).segments ∧
    ∀ x : ℚ, ((split cuts d t).segments ++ cuts).countP (memInd x)
        = if 0 ≤ x ∧ x < d then 1 else 0 := by
  have hhead : ∀ c, cuts.head? = some c → (0 : ℚ) ≤ c.1 := by
    intro c hc
    have hmem : c ∈ cuts := List.mem_of_mem_head? hc
    exact le_of_lt (lt_of_le_of_lt ht (hin c hmem).1)
  have htile := planCuts_tiling t d ht cuts 0 0 (le_refl 0) hin hchain hhead
  set r := planCuts t 0 0 cuts with hrdef
  have hend : r.endPos < d - t := by
    rcases htile.2.1 with h | h
    · rw [h]; linarith
    · rcases List.mem_map.mp h with ⟨c, hcmem, hceq⟩
      rw [← hceq]
      exact (hin c hcmem).2.2
  have hend0 : (0 : ℚ) ≤ r.endPos := htile.1
  have hendd : r.endPos ≤ d := by linarith
  rw [split_eq, ← hrdef, if_pos hend]
  constructor
  · rw [List.pairwise_append]
    refine ⟨htile.2.2.2.1, List.pairwise_singleton _ _, ?_⟩
    intro a ha b hb
    rw [List.mem_singleton] at hb
    subst hb
    exact (htile.2.2.1 a ha).2.2
  · intro x
    have hx := htile.2.2.2.2 x
    rw [List.countP_append] at hx
    rw [List.countP_append, List.countP_append, List.countP_cons, List.countP_nil]
    simp only [memInd_ite] at *
    have glue1 := indicator_glue 0 r.endPos d x hend0 hendd
    omega

/-- C1 (counterexample): on cuts `[(20,30),(60,65)]`, `duration = 100`,
`thresh = 5`, the cutpoints passed to `Subtitles.mark` are
`[20, 60, 100]` — the segment end positions in the source recording —
while the cumulative kept (output) durations up to each segment's end are
`[20, 50, 85]`; the two sequences differ, so the claim that the mark
equals the cumulative kept duration is false of the code. -/
theorem subMarks_not_cumulative_kept_cex :
    (split [(20, 30), (60, 65)] 100 5).subMarks = [20, 60, 100] ∧
    cumKept 0 (split [(20, 30), (60, 65)] 100 5).segments = [20, 50, 85] ∧
    (split [(20, 30), (60, 65)] 100 5).subMarks
      ≠ cumKept 0 (split [(20, 30), (60, 65)] 100 5).segments := by
  have h1 : (split [(20, 30), (60, 65)] 100 5).subMarks = [20, 60, 100] := by
    norm_num [split, splitStep, extract, initState]
  have h2 : cumKept 0 (split [(20, 30), (60, 65)] 100 5).segments = [20, 50, 85] := by
    norm_num [split, splitStep, extract, initState, cumKept]
  refine ⟨h1, h2, ?_⟩
  rw [h1, h2]
  norm_num

/-- C1 (amended): the cutpoint appended for caption resynchronization at
each extraction is the extracted Segment's end position in the *source*
recording (`clip[1]`), not the cumulative kept output duration: for every
run of `Transcoder.split`, the `Subtitles.mark` sequence equals the list
of second components of the emitted Segments. -/
theorem split_subMarks_eq_segment_ends (cuts : List (ℚ × ℚ)) (d t : ℚ) :
    (split cuts d t).subMarks = (split cuts d t).segments.map Prod.snd := by
  rw [split_eq]
  by_cases h : (planCuts t 0 0 cuts).endPos < d - t
  · simp [h]
  · simp [h]

/-- C2 (counterexample): on cuts `[(20,30),(31,40)]`, `duration = 100`,
`thresh = 5`, the middle candidate segment `(30, 31)` has length
`1 ≤ thresh` yet is emitted, because the code tests `start > thresh`
(the cut's absolute start), not `start - pos > thresh` (the candidate
segment's length) as the claim states. -/
theorem short_middle_segment_emitted_cex :
    (split [(20, 30), (31, 40)] 100 5).segments = [(0, 20), (30, 31), (40, 100)] ∧
    ¬((31 : ℚ) - 30 > 5) := by
  constructor
  · norm_num [split, splitStep, extract, initState]
  · norm_num

/-- C2 (amended): a kept segment `(pos, start)` is emitted for a cut
`(start, end)` if and only if `start > thresh` and `start > pos` — the
threshold is compared against the cut's absolute start position, not the
candidate segment's length — and the trailing segment `(pos, duration)`
is emitted iff `pos < duration - thresh`.  Stated as the exact
characterization of the emitted segment list by the per-cut rule
`planCuts` carries in its definition. -/
theorem split_segments_characterization (cuts : List (ℚ × ℚ)) (d t : ℚ) :
    (split cuts d t).segments = (planCuts t 0 0 cuts).segs ++
      (if (planCuts t 0 0 cuts).endPos < d - t
        then [((planCuts t 0 0 cuts).endPos, d)] else []) := by
  rw [split_eq]
  by_cases h : (planCuts t 0 0 cuts).endPos < d - t
  · simp [h]
  · simp [h]

/-- C3 (counterexample): on the single cut `[(3,10)]`, `duration = 100`,
`thresh = 5`, the leading candidate segment is dropped (`3 ≤ thresh`) yet
`elapsed` still advances by `3`, so the only emitted Segment `(10, 100)`
receives chapter marker `3`, while the total length of all Segments
emitted before it is `0`; the claim that each marker equals that total is
false of the code. -/
theorem marker_not_sum_of_emitted_cex :
    (split [(3, 10)] 100 5).segments = [(10, 100)] ∧
    (split [(3, 10)] 100 5).chapterMarks = [3] ∧
    (3 : ℚ) ≠ 0 := by
  refine ⟨?_, ?_, by norm_num⟩
  · norm_num [split, splitStep, extract, initState]
  · norm_num [split, splitStep, extract, initState]

/-- C3 (amended): in `Transcoder.split` the output cursor `elapsed`
advances by `start - pos` for *every* cut, whether or not the candidate
segment was emitted (only `pos = end` is shared, as the claim says); the
chapter marker recorded on emission is the `elapsed` value before the
advance.  Hence a marker equals the total length of previously emitted
segments only when no candidate was dropped before it. -/
theorem splitStep_elapsed_unconditional (t : ℚ) (st : SplitState) (c : ℚ × ℚ) :
    (splitStep t st c).elapsed = st.elapsed + (c.1 - st.pos) ∧
    (splitStep t st c).pos = c.2 ∧
    (splitStep t st c).chapterMarks
      = st.chapterMarks ++ (if c.1 > t ∧ c.1 > st.pos then [st.elapsed] else []) := by
  by_cases h : c.1 > t ∧ c.1 > st.pos
  · simp [splitStep, extract, h]
  · simp [splitStep, extract, h]

/-- C4 (counterexample): the cutlist `[(30, 20)]` is invalid
(`end ≤ start`), yet `Transcoder.split` performs no validation: planning
proceeds and extraction of the (overlapping!) segments `(0,30)` and
`(20,100)` is driven directly — `Transcoder._extract` runs external
extraction with no validation error ever raised. -/
theorem invalid_cutlist_not_rejected_cex :
    ¬specValidCutlist 100 [(30, 20)] ∧
    (split [(30, 20)] 100 5).segments = [(0, 30), (20, 100)] := by
  constructor
  · intro h
    exact absurd (h.1 (30, 20) (List.mem_singleton_self _)).2.1 (by norm_num)
  · norm_num [split, splitStep, extract, initState]

/-- C4 (amended): the code performs no Cutlist validation at all; the
planning loop is a total function that processes *any* cutlist — valid or
invalid — without failing, always producing at most `N + 1` segments with
exactly one chapter marker and one subtitle cutpoint per segment. -/
theorem split_total_no_validation (cuts : List (ℚ × ℚ)) (d t : ℚ) :
    (split cuts d t).segments.length ≤ cuts.length + 1 ∧
    (split cuts d t).chapterMarks.length = (split cuts d t).segments.length ∧
    (split cuts d t).subMarks.length = (split cuts d t).segments.length := by
  have h := planCuts_lengths t cuts 0 0
  rw [split_eq]
  by_cases hc : (planCuts t 0 0 cuts).endPos < d - t
  · simp only [hc, if_true, List.length_append, List.length_map, List.length_cons,
      List.length_nil, and_true, eq_self_iff_true]
    omega
  · simp only [hc, if_false, List.length_map, and_true, eq_self_iff_true]
    omega

/-- C6 (counterexample): on `duration = 100`, `thresh = 5`, cuts
`[(20,30),(60,65)]` the emitted Segments are `[(0,20),(30,60),(65,100)]`
as the claim states, but the interior chapter markers are `[0, 20, 50]`,
not `[0, 30, 65]`, and the closing marker is `85`, not `100`. -/
theorem split_concrete_markers_cex :
    (split [(20, 30), (60, 65)] 100 5).segments = [(0, 20), (30, 60), (65, 100)] ∧
    (split [(20, 30), (60, 65)] 100 5).chapterMarks ≠ [0, 30, 65] ∧
    (split [(20, 30), (60, 65)] 100 5).closing ≠ 100 := by
  have h1 : (split [(20, 30), (60, 65)] 100 5).chapterMarks = [0, 20, 50] := by
    norm_num [split, splitStep, extract, initState]
  have h2 : (split [(20, 30), (60, 65)] 100 5).closing = 85 := by
    norm_num [split, splitStep, extract, initState]
  refine ⟨?_, ?_, ?_⟩
  · norm_num [split, splitStep, extract, initState]
  · rw [h1]; norm_num
  · rw [h2]; norm_num

/-- C6 (amended): on `duration = 100`, `thresh = 5`, cuts
`[(20,30),(60,65)]` the planner emits Segments
`[(0,20),(30,60),(65,100)]`, records interior chapter markers at elapsed
`0`, `20`, `50`, subtitle cutpoints at `20`, `60`, `100`, and the closing
marker at elapsed `85`. -/
theorem split_concrete_trace :
    (split [(20, 30), (60, 65)] 100 5).segments = [(0, 20), (30, 60), (65, 100)] ∧
    (split [(20, 30), (60, 65)] 100 5).chapterMarks = [0, 20, 50] ∧
    (split [(20, 30), (60, 65)] 100 5).subMarks = [20, 60, 100] ∧
    (split [(20, 30), (60, 65)] 100 5).closing = 85 := by
  refine ⟨?_, ?_, ?_, ?_⟩ <;> norm_num [split, splitStep, extract, initState]

/-- C5 (witness): `split_partition` instantiated at `duration = 100`,
`thresh = 5`, cuts `[(20,30),(60,65)]`, with the coverage count
evaluated at the sample point `x = 45`. -/
theorem split_partition_witness :
    List.Pairwise (fun a b : ℚ × ℚ => a.2 ≤ b.1)
      (split [(20, 30), (60, 65)] 100 5).segments ∧
    ((split [(20, 30), (60, 65)] 100 5).segments ++ [(20, 30), (60, 65)]).countP
        (memInd 45) = if (0 : ℚ) ≤ 45 ∧ (45 : ℚ) < 100 then 1 else 0 := by
  have h := split_partition [(20, 30), (60, 65)] 100 5 (by norm_num) (by norm_num)
    (by intro c hc; fin_cases hc <;> norm_num)
    (by norm_num [List.chain'_cons, List.chain'_singleton])
  exact ⟨h.1, h.2 45⟩

/-- Unfolding equation for the caption loop of `Subtitles.adjust`. -/
theorem adjustGo_cons (marks : List ℚ) (st : ℚ × ℕ) (c : ℚ × ℚ) (cs : List (ℚ × ℚ)) :
    adjustGo marks st (c :: cs)
      = (adjustStep marks st c).2 :: adjustGo marks (adjustStep marks st c).1 cs :=
  rfl

/-- C7: with running delay `0`, a caption `(10, 12)` whose next
unconsumed cutpoint mark is `11` — strictly between its bounds — is
rewritten to `(10, 11)`, the mark is consumed, and the delay applied to
all subsequent captions becomes `-1` (it decreases by exactly `1`). -/
theorem adjust_clip_at_mark (marks : List ℚ) (curr : ℕ) (rest : List (ℚ × ℚ))
    (h : marks.get? curr = some 11) :
    adjustGo marks (0, curr) ((10, 12) :: rest)
      = (10, 11) :: adjustGo marks (-1, curr + 1) rest := by
  rw [adjustGo_cons]
  have hstep : adjustStep marks (0, curr) (10, 12) = ((-1, curr + 1), (10, 11)) := by
    simp only [adjustStep, h]
    norm_num
  rw [hstep]

/-- C7 (witness): `adjust_clip_at_mark` at `marks = [11]`, `curr = 0`,
no further captions; via `Subtitles.adjust`'s entry state `(0, 0)`. -/
theorem adjust_clip_at_mark_witness :
    adjustGo [11] (0, 0) [(10, 12)] = [(10, 11)] := by
  have h := adjust_clip_at_mark [11] 0 [] rfl
  simpa [adjustGo] using h

/-- The resynchronization step never increases the running delay, and the
rewritten times it emits are never later than the original times whenever
the incoming delay is nonpositive. -/
theorem adjustStep_bounds (marks : List ℚ) (st : ℚ × ℕ) (c : ℚ × ℚ)
    (h : st.1 ≤ 0) :
    (adjustStep marks st c).1.1 ≤ st.1 ∧
    (adjustStep marks st c).2.1 ≤ c.1 ∧ (adjustStep marks st c).2.2 ≤ c.2 := by
  unfold adjustStep
  cases hg : marks.get? st.2 with
  | none =>
    exact ⟨le_refl _, by simp; linarith, by simp; linarith⟩
  | some m =>
    dsimp only
    by_cases h1 : m < c.2 + st.1
    · by_cases h2 : m > c.1 + st.1
      · rw [if_pos h1, if_pos h2]
        exact ⟨by simp; linarith, by simp; linarith, by simp; linarith⟩
      · rw [if_pos h1, if_neg h2]
        exact ⟨le_refl _, by simp; linarith, by simp; linarith⟩
    · rw [if_neg h1]
      exact ⟨le_refl _, by simp; linarith, by simp; linarith⟩

/-- The caption loop, started with nonpositive delay, rewrites every
caption to times no later than the originals. -/
theorem adjustGo_not_later (marks : List ℚ) (caps : List (ℚ × ℚ)) :
    ∀ st : ℚ × ℕ, st.1 ≤ 0 →
      List.Forall₂ (fun o c : ℚ × ℚ => o.1 ≤ c.1 ∧ o.2 ≤ c.2)
        (adjustGo marks st caps) caps := by
  induction caps with
  | nil => intro st _; exact List.Forall₂.nil
  | cons c cs ih =>
    intro st hst
    rw [adjustGo_cons]
    have hb := adjustStep_bounds marks st c hst
    exact List.Forall₂.cons ⟨hb.2.1, hb.2.2⟩ (ih _ (le_trans hb.1 hst))

/-- C9: over a caption-resynchronization pass the cumulative delay starts
at `0` and each step keeps it nonpositive and non-increasing (the only
increment, `marks[curr] - end`, is applied when `marks[curr]` is below
the delay-adjusted end, so it is negative); consequently no rewritten
caption's start or end time is ever later than its original value. -/
theorem adjust_never_later (marks : List ℚ) (caps : List (ℚ × ℚ)) :
    List.Forall₂ (fun o c : ℚ × ℚ => o.1 ≤ c.1 ∧ o.2 ≤ c.2) (adjust marks caps) caps ∧
    ∀ (st : ℚ × ℕ) (c : ℚ × ℚ), st.1 ≤ 0 → (adjustStep marks st c).1.1 ≤ st.1 := by
  constructor
  · unfold adjust
    by_cases h : marks.length = 0
    · rw [if_pos h]
      exact List.forall₂_same.mpr (fun c _ => ⟨le_refl _, le_refl _⟩)
    · rw [if_neg h]
      exact adjustGo_not_later marks caps (0, 0) (le_refl 0)
  · intro st c hst
    exact (adjustStep_bounds marks st c hst).1

/-- C9 (witness): `adjust_never_later` at `marks = [11]`,
`caps = [(10, 12)]`, with the step conjunct applied at state `(0, 0)` and
caption `(10, 12)`, discharging the nonpositivity hypothesis. -/
theorem adjust_never_later_witness :
    List.Forall₂ (fun o c : ℚ × ℚ => o.1 ≤ c.1 ∧ o.2 ≤ c.2)
      (adjust [11] [(10, 12)]) [(10, 12)] ∧
    (adjustStep [11] (0, 0) (10, 12)).1.1 ≤ 0 := by
  have h := adjust_never_later [11] [(10, 12)]
  exact ⟨h.1, h.2 (0, 0) (10, 12) (le_refl 0)⟩

/-- When the requested language translates and no probed line's tag
equals the translation, probing yields every stream disabled. -/
theorem probeAudio_no_match (language l3 : String)
    (hiso : iso_639_2 language = Except.ok l3) :
    ∀ probes : List AudioProbe, (∀ p ∈ probes, p.lang ≠ some l3) →
      probeAudio language probes
        = Except.ok (probes.map (fun p => (p.pid, false))) := by
  intro probes
  induction probes with
  | nil => intro _; rfl
  | cons p rest ih =>
    intro hno
    have hrest := ih (fun q hq => hno q (List.mem_cons_of_mem p hq))
    cases hp : p.lang with
    | none =>
      simp only [probeAudio, hp, hrest, List.map_cons]
    | some tag =>
      have htag : (tag == l3) = false := by
        rw [beq_eq_false_iff_ne]
        intro h
        exact hno p (List.mem_cons_self p rest) (by rw [hp, h])
      simp only [probeAudio, hp, hiso, htag, hrest, List.map_cons]

/-- C8: provided the requested two-letter language translates through the
fixed table, audio stream selection in `Transcoder._find_streams` behaves
as claimed: with zero probed audio streams it fails with the resolution
error `'No audio streams could be found.'`; with at least one probed
audio stream none of whose language tags match the translated code, it
never fails — the first probed stream is force-enabled and all others
stay disabled. -/
theorem findAudioStreams_language_fallback (language l3 : String)
    (probes : List AudioProbe)
    (hiso : iso_639_2 language = Except.ok l3)
    (hno : ∀ p ∈ probes, p.lang ≠ some l3) :
    (probes = [] → findAudioStreams language probes
      = Except.error ("No audio streams could be found.")) ∧
    (∀ a tl, probes = a :: tl → findAudioStreams language probes
      = Except.ok ((a.pid, true) :: tl.map (fun p => (p.pid, false)))) := by
  have hpa := probeAudio_no_match language l3 hiso probes hno
  constructor
  · intro h
    subst h
    simp [findAudioStreams, hpa]
  · intro a tl h
    subst h
    have hfil : (((a.pid, false) :: tl.map (fun p => (p.pid, false))).filter
        (fun x => x.2)).length = 0 := by
      rw [List.length_eq_zero, List.filter_eq_nil_iff]
      intro x hx
      rcases List.mem_cons.mp hx with h | h
      · subst h; simp
      · rcases List.mem_map.mp h with ⟨q, -, hq⟩
        subst hq; simp
    simp only [findAudioStreams, hpa, List.map_cons, List.length_cons,
      Nat.succ_ne_zero, if_false, hfil, if_pos]

/-- C8 (witness): `findAudioStreams_language_fallback` for English
(`'en'` → `'eng'`): an empty probe list yields the resolution error; a
probe list with a French-tagged stream `1` and an untagged stream `2`
yields stream `1` force-enabled. -/
theorem findAudioStreams_language_fallback_witness :
    findAudioStreams ("en") [] = Except.error ("No audio streams could be found.") ∧
    findAudioStreams ("en") [⟨1, some ("fra")⟩, ⟨2, none⟩]
      = Except.ok [(1, true), (2, false)] := by
  have h1 := findAudioStreams_language_fallback ("en") ("eng") [] rfl (by simp)
  have h2 := findAudioStreams_language_fallback ("en") ("eng")
    [⟨1, some ("fra")⟩, ⟨2, none⟩] rfl
    (by intro p hp; fin_cases hp <;> simp)
  refine ⟨h1.1 rfl, ?_⟩
  have := h2.2 ⟨1, some ("fra")⟩ [⟨2, none⟩] rfl
  simpa using this

/-- C10: the claim — that for every non-negative input the comma-form
timestamp serializer produces a millisecond field in `0..999`, in
particular at `59.9996` — is right about intent but wrong about the code:
at `sec = 59.9996` the code computes
`frac = int(round(0.9996 * 1000)) = 1000`, so the `%03d` field is the
four-digit `1000` (the string is `'00:00:59,1000'`), a malformed SRT
timestamp. -/
theorem seconds_to_time_frac_comma_overflow :
    seconds_to_time_frac_comma (599996 / 10000) = ⟨0, 0, 59, 1000⟩ ∧
    ¬(0 ≤ (seconds_to_time_frac_comma (599996 / 10000)).frac ∧
      (seconds_to_time_frac_comma (599996 / 10000)).frac ≤ 999) := by
  have h : seconds_to_time_frac_comma (599996 / 10000) = ⟨0, 0, 59, 1000⟩ := by
    norm_num [seconds_to_time_frac_comma, pyInt, pyRound, pyMod1]
  refine ⟨h, ?_⟩
  rw [h]
  norm_num

end Transcode
